import Mathlib

/-!
Verification development for the ooze interpreter core.

Shallow embedding of the type graph, the graph-construction helpers
(`pass_bys_of`, `output_count_of`), the driver (`run_function` /
`run_to_string` / `parse_scripts`), the sema identifier graph and overload
resolution, and the `select` async primitive, with theorems checking the
natural-language specification against this embedding.
-/

namespace Ooze

/-- Edge transport mode of a dataflow graph input (`PassBy` in the source). -/
inductive PassBy where
  | Copy
  | Move
  | Borrow
deriving DecidableEq, Repr

mutual

/-- Type-graph nodes (`TypeTag` plus `TypeID` payload); `Tuple` carries a
list of types, embedded as a mutual inductive so structural recursion and
induction stay simple. Native `TypeID`s are modelled as `Nat`. -/
inductive Ty where
  | Leaf (id : Nat)
  | Tuple (ts : TyList)
  | Borrow (t : Ty)
  | Fn (arg res : Ty)
  | Floating

/-- List of types (children of a `Tuple` node). -/
inductive TyList where
  | nil
  | cons (hd : Ty) (tl : TyList)
end

mutual

/-- `pass_bys_of` from function graph construction: pre-order walk of the
type pushing `Copy`/`Move` for a leaf depending on membership in
`copy_types`, `Copy` for a `Fn` node, `Borrow` for a `Borrow` node
(without descending), descending through `Tuple` (and `Floating`, which
falls through to the descend case in the source) appending nothing.
The accumulator mirrors the `pass_bys` vector threaded by the source. -/
def pass_bys_of (ct : List Nat) : Ty → List PassBy → List PassBy
  | .Leaf id, acc => acc ++ [if ct.contains id then .Copy else .Move]
  | .Fn _ _, acc => acc ++ [.Copy]
  | .Borrow _, acc => acc ++ [.Borrow]
  | .Floating, acc => acc
  | .Tuple ts, acc => pass_bys_of_list ct ts acc

/-- Fold of `pass_bys_of` over the children of a `Tuple` node. -/
def pass_bys_of_list (ct : List Nat) : TyList → List PassBy → List PassBy
  | .nil, acc => acc
  | .cons hd tl, acc => pass_bys_of_list ct tl (pass_bys_of ct hd acc)

end

mutual

/-- `output_count_of` from function graph construction: counts `Leaf` and
`Fn` nodes as one output each without descending, descends through
`Borrow`, `Floating` and `Tuple`. -/
def output_count_of : Ty → Nat
  | .Leaf _ => 1
  | .Fn _ _ => 1
  | .Borrow t => output_count_of t
  | .Floating => 0
  | .Tuple ts => output_count_of_list ts

/-- Sum of `output_count_of` over the children of a `Tuple` node. -/
def output_count_of_list : TyList → Nat
  | .nil => 0
  | .cons hd tl => output_count_of hd + output_count_of_list tl

end

mutual

/-- The spec's size rule (§3): each `Leaf` and each `Fn` counts as one
storage cell, a `Tuple` is the sum of its components, and a `Borrow`
wrapper is transparent, contributing no cells of its own. -/
def sizeSpec : Ty → Nat
  | .Leaf _ => 1
  | .Fn _ _ => 1
  | .Borrow t => sizeSpec t
  | .Floating => 0
  | .Tuple ts => sizeSpecList ts

/-- Sum of `sizeSpec` over a list of component types. -/
def sizeSpecList : TyList → Nat
  | .nil => 0
  | .cons hd tl => sizeSpec hd + sizeSpecList tl

end

mutual

/-- The spec's pass-by rule (§4.5), stated from the spec's words: walk the
type DAG in pre-order; `Borrow(_)` gives `Borrow` without descending,
`Fn(_)` gives `Copy`, `Leaf(id)` gives `Copy` when `id` is
copy-registered and `Move` otherwise, and `Tuple` descends. -/
def passBySpec (ct : List Nat) : Ty → List PassBy
  | .Leaf id => [if ct.contains id then .Copy else .Move]
  | .Fn _ _ => [.Copy]
  | .Borrow _ => [.Borrow]
  | .Floating => []
  | .Tuple ts => passBySpecList ct ts

/-- Concatenation of `passBySpec` over a list of component types. -/
def passBySpecList (ct : List Nat) : TyList → List PassBy
  | .nil => []
  | .cons hd tl => passBySpec ct hd ++ passBySpecList ct tl

end

mutual

/-- `true` when the type holds no `Floating` node. -/
def noFloating : Ty → Bool
  | .Leaf _ => true
  | .Fn a r => noFloating a && noFloating r
  | .Borrow t => noFloating t
  | .Floating => false
  | .Tuple ts => noFloatingList ts

/-- `noFloating` over a list of types. -/
def noFloatingList : TyList → Bool
  | .nil => true
  | .cons hd tl => noFloating hd && noFloatingList tl

end

mutual

theorem pass_bys_of_acc (ct : List Nat) (t : Ty) (acc : List PassBy) :
    pass_bys_of ct t acc = acc ++ pass_bys_of ct t [] := by
  cases t with
  | Leaf id => simp [pass_bys_of]
  | Fn a r => simp [pass_bys_of]
  | Borrow t => simp [pass_bys_of]
  | Floating => simp [pass_bys_of]
  | Tuple ts => simpa [pass_bys_of] using pass_bys_of_list_acc ct ts acc

theorem pass_bys_of_list_acc (ct : List Nat) (ts : TyList) (acc : List PassBy) :
    pass_bys_of_list ct ts acc = acc ++ pass_bys_of_list ct ts [] := by
  cases ts with
  | nil => simp [pass_bys_of_list]
  | cons hd tl =>
    rw [pass_bys_of_list, pass_bys_of_list, pass_bys_of_acc ct hd acc,
      pass_bys_of_list_acc ct tl (acc ++ pass_bys_of ct hd []),
      pass_bys_of_list_acc ct tl (pass_bys_of ct hd [])]
    simp

end

mutual

theorem pass_bys_of_eq_spec (ct : List Nat) (t : Ty) :
    pass_bys_of ct t [] = passBySpec ct t := by
  cases t with
  | Leaf id => simp [pass_bys_of, passBySpec]
  | Fn a r => simp [pass_bys_of, passBySpec]
  | Borrow t => simp [pass_bys_of, passBySpec]
  | Floating => simp [pass_bys_of, passBySpec]
  | Tuple ts => simpa [pass_bys_of, passBySpec] using pass_bys_of_list_eq_spec ct ts

theorem pass_bys_of_list_eq_spec (ct : List Nat) (ts : TyList) :
    pass_bys_of_list ct ts [] = passBySpecList ct ts := by
  cases ts with
  | nil => simp [pass_bys_of_list, passBySpecList]
  | cons hd tl =>
    rw [pass_bys_of_list, passBySpecList, pass_bys_of_list_acc ct tl (pass_bys_of ct hd []),
      pass_bys_of_list_eq_spec ct tl, pass_bys_of_eq_spec ct hd]

end

/-- C4: for every type with no `Floating` node, the pass-by list computed
for a consumer equals the spec's pre-order rule: `Borrow` for a borrow
node without descending into it, `Copy` for a `Fn` node, `Copy` for a
copy-registered leaf and `Move` otherwise, descending through `Tuple`
nodes which themselves append nothing. -/
theorem pass_bys_of_correct (ct : List Nat) (t : Ty) (_h : noFloating t = true) :
    pass_bys_of ct t [] = passBySpec ct t :=
  pass_bys_of_eq_spec ct t

/-- Witness for C4 at the type `((&i32, fn), u8)` with `i32` (id 0)
copy-registered and `u8` (id 1) not. -/
theorem pass_bys_of_correct_witness :
    noFloating (.Tuple (.cons (.Tuple (.cons (.Borrow (.Leaf 0))
        (.cons (.Fn (.Leaf 0) (.Leaf 1)) .nil))) (.cons (.Leaf 1) .nil))) = true ∧
    pass_bys_of [0] (.Tuple (.cons (.Tuple (.cons (.Borrow (.Leaf 0))
        (.cons (.Fn (.Leaf 0) (.Leaf 1)) .nil))) (.cons (.Leaf 1) .nil))) [] =
      passBySpec [0] (.Tuple (.cons (.Tuple (.cons (.Borrow (.Leaf 0))
        (.cons (.Fn (.Leaf 0) (.Leaf 1)) .nil))) (.cons (.Leaf 1) .nil))) :=
  ⟨rfl, pass_bys_of_correct [0] _ rfl⟩

mutual

theorem output_count_of_eq_sizeSpec (t : Ty) : output_count_of t = sizeSpec t := by
  cases t with
  | Leaf id => rfl
  | Fn a r => rfl
  | Borrow t => simpa [output_count_of, sizeSpec] using output_count_of_eq_sizeSpec t
  | Floating => rfl
  | Tuple ts => simpa [output_count_of, sizeSpec] using output_count_of_list_eq_sizeSpecList ts

theorem output_count_of_list_eq_sizeSpecList (ts : TyList) :
    output_count_of_list ts = sizeSpecList ts := by
  cases ts with
  | nil => rfl
  | cons hd tl =>
    rw [output_count_of_list, sizeSpecList, output_count_of_eq_sizeSpec hd,
      output_count_of_list_eq_sizeSpecList tl]

end

/-- C5: for every type, the node output count computed from the type
equals the spec's size rule — each `Leaf` counts 1, each `Fn` counts 1
without descending into its children, a `Tuple` counts the sum of its
components, and a `Borrow` wrapper is transparent, contributing no cell
of its own. -/
theorem output_count_of_correct (t : Ty) : output_count_of t = sizeSpec t :=
  output_count_of_eq_sizeSpec t

mutual

/-- `is_binding_copyable` from the driver: pre-order walk of the binding's
type; a `Leaf` must be in `copy_types`, a `Fn` node is copyable without
looking at its children, `Tuple` descends; `Borrow` and `Floating` hit
`assert(false)` in the source and leave the flag unchanged. -/
def is_binding_copyable (ct : List Nat) : Ty → Bool
  | .Leaf id => ct.contains id
  | .Fn _ _ => true
  | .Borrow _ => true
  | .Floating => true
  | .Tuple ts => is_binding_copyable_list ct ts

/-- `is_binding_copyable` over the children of a `Tuple` node. -/
def is_binding_copyable_list (ct : List Nat) : TyList → Bool
  | .nil => true
  | .cons hd tl => is_binding_copyable ct hd && is_binding_copyable_list ct tl

end

mutual

/-- The condition of claim C1: the type is built only from
copy-registered leaf types, `Fn` nodes and tuples of such. -/
def builtFromCopyLeaves (ct : List Nat) : Ty → Bool
  | .Leaf id => ct.contains id
  | .Fn _ _ => true
  | .Borrow _ => false
  | .Floating => false
  | .Tuple ts => builtFromCopyLeavesList ct ts

/-- `builtFromCopyLeaves` over the children of a `Tuple` node. -/
def builtFromCopyLeavesList (ct : List Nat) : TyList → Bool
  | .nil => true
  | .cons hd tl => builtFromCopyLeaves ct hd && builtFromCopyLeavesList ct tl

end

mutual

/-- The condition of claim C2: the type structurally contains a leaf whose
`TypeID` is not copy-registered (anywhere, including under `Fn` or
`Borrow` nodes). -/
def containsNonCopyLeaf (ct : List Nat) : Ty → Bool
  | .Leaf id => !ct.contains id
  | .Fn a r => containsNonCopyLeaf ct a || containsNonCopyLeaf ct r
  | .Borrow t => containsNonCopyLeaf ct t
  | .Floating => false
  | .Tuple ts => containsNonCopyLeafList ct ts

/-- `containsNonCopyLeaf` over the children of a `Tuple` node. -/
def containsNonCopyLeafList (ct : List Nat) : TyList → Bool
  | .nil => false
  | .cons hd tl => containsNonCopyLeaf ct hd || containsNonCopyLeafList ct tl

end

mutual

theorem is_binding_copyable_of_builtFromCopyLeaves (ct : List Nat) (t : Ty)
    (h : builtFromCopyLeaves ct t = true) : is_binding_copyable ct t = true := by
  cases t with
  | Leaf id => exact h
  | Fn a r => rfl
  | Borrow t => rfl
  | Floating => rfl
  | Tuple ts =>
    exact is_binding_copyable_list_of_builtFromCopyLeavesList ct ts h

theorem is_binding_copyable_list_of_builtFromCopyLeavesList (ct : List Nat) (ts : TyList)
    (h : builtFromCopyLeavesList ct ts = true) : is_binding_copyable_list ct ts = true := by
  cases ts with
  | nil => rfl
  | cons hd tl =>
    rw [builtFromCopyLeavesList, Bool.and_eq_true] at h
    rw [is_binding_copyable_list, Bool.and_eq_true]
    exact ⟨is_binding_copyable_of_builtFromCopyLeaves ct hd h.1,
      is_binding_copyable_list_of_builtFromCopyLeavesList ct tl h.2⟩

end

/-- A REPL-level binding: its type and the stored values (one value per
storage cell of the type). `Any` payloads are modelled as `Nat`. -/
structure Binding where
  type : Ty
  values : List Nat

/-- The driver's binding map, keyed by binding name. -/
abbrev Bindings : Type := List (String × Binding)

/-- Find the binding for a name (`bindings.find(name)`). -/
def lookupBinding : Bindings → String → Option Binding
  | [], _ => none
  | (k, v) :: tl, x => if k = x then some v else lookupBinding tl x

/-- Erase the entry for a name (the `bindings.erase(it)` of the source;
removes the first matching entry). -/
def eraseBinding : Bindings → String → Bindings
  | [], _ => []
  | (k, v) :: tl, x => if k = x then tl else (k, v) :: eraseBinding tl x

/-- Names present in the binding map. -/
def bindingKeys (bs : Bindings) : List String := bs.map (fun p => p.1)

/-- Modelled from the spec: the driver's handling of a REPL line that is a
single identifier `x`. The sema resolution outcome, the `Future` /
`BorrowedFuture` runtime and the capture lists of `create_graph` are not
under src/, so they are modelled from §4.7, §4.2(d) and §4.6 of the spec
(borrow-then-clone yields an equal value; take moves the value out;
candidates are the local binding and the same-named globals, zero
candidates reporting an undeclared binding and several an ambiguity).
The branch structure on a captured value is transcribed from
`run_function` in the driver: a name resolving to a global function
becomes a function value; a copyable binding (`is_binding_copyable`) is
borrowed and cloned, leaving the map unchanged; otherwise the values are
taken and the binding erased. -/
def run_ident (ct : List Nat) (fns : List (String × Nat)) (bs : Bindings) (x : String) :
    Except String (List Nat × Bindings) :=
  match lookupBinding bs x, (List.find? (fun p => p.1 == x) fns).map (fun p => p.2) with
  | some _, some _ => .error "function call is ambiguous"
  | some b, none =>
    if is_binding_copyable ct b.type then .ok (b.values, bs)
    else .ok (b.values, eraseBinding bs x)
  | none, some v => .ok ([v], bs)
  | none, none => .error "use of undeclared binding"

/-- Two sequential evaluations of the identifier `x`, threading the
binding map, returning both value vectors and the final map. -/
def run_ident_twice (ct : List Nat) (fns : List (String × Nat)) (bs : Bindings) (x : String) :
    Except String ((List Nat × List Nat) × Bindings) :=
  match run_ident ct fns bs x with
  | .error e => .error e
  | .ok (v1, bs1) =>
    match run_ident ct fns bs1 x with
    | .error e => .error e
    | .ok (v2, bs2) => .ok ((v1, v2), bs2)

/-- C1: a binding whose type is built only from copy-registered leaf
types (and `Fn` nodes) can be evaluated twice in sequence: both runs
succeed, yield the same values, and the binding is still present in the
binding map afterwards. -/
theorem run_ident_copyable (ct : List Nat) (fns : List (String × Nat)) (bs : Bindings)
    (x : String) (b : Binding)
    (hb : lookupBinding bs x = some b)
    (hf : List.find? (fun p => p.1 == x) fns = none)
    (hc : builtFromCopyLeaves ct b.type = true) :
    run_ident_twice ct fns bs x = .ok ((b.values, b.values), bs) ∧
      lookupBinding bs x = some b := by
  have hcopy := is_binding_copyable_of_builtFromCopyLeaves ct b.type hc
  have h1 : run_ident ct fns bs x = .ok (b.values, bs) := by
    simp [run_ident, hb, hf, hcopy]
  refine ⟨?_, hb⟩
  simp [run_ident_twice, h1]

/-- Witness for C1: the copy-registered leaf binding `x : i32 = 3`. -/
theorem run_ident_copyable_witness :
    run_ident_twice [0] [] [("x", ⟨.Leaf 0, [3]⟩)] "x" =
      .ok (([3], [3]), [("x", ⟨.Leaf 0, [3]⟩)]) ∧
    lookupBinding [("x", ⟨.Leaf 0, [3]⟩)] "x" = some ⟨.Leaf 0, [3]⟩ :=
  run_ident_copyable [0] [] [("x", ⟨.Leaf 0, [3]⟩)] "x" ⟨.Leaf 0, [3]⟩ rfl rfl rfl

/-- Helper: a name absent from the key list is not found. -/
theorem lookupBinding_eq_none_of_not_mem (bs : Bindings) (x : String)
    (h : x ∉ bindingKeys bs) : lookupBinding bs x = none := by
  induction bs with
  | nil => rfl
  | cons hd tl ih =>
    obtain ⟨k, v⟩ := hd
    rw [bindingKeys, List.map_cons, List.mem_cons] at h
    push_neg at h
    rw [lookupBinding, if_neg (fun e => h.1 e.symm)]
    exact ih (by simpa [bindingKeys] using h.2)

/-- Helper: after erasing a name from a map with pairwise-distinct keys,
looking the name up fails. -/
theorem lookupBinding_eraseBinding_self (bs : Bindings) (x : String)
    (hnd : (bindingKeys bs).Nodup) : lookupBinding (eraseBinding bs x) x = none := by
  induction bs with
  | nil => rfl
  | cons hd tl ih =>
    obtain ⟨k, v⟩ := hd
    rw [bindingKeys, List.map_cons, List.nodup_cons] at hnd
    by_cases hx : k = x
    · rw [eraseBinding, if_pos hx]
      exact lookupBinding_eq_none_of_not_mem tl x (by rw [bindingKeys, ← hx]; exact hnd.1)
    · rw [eraseBinding, if_neg hx, lookupBinding, if_neg hx]
      exact ih hnd.2

/-- Counterexample to C2 as stated: the function-typed binding
`x : fn(T0) -> T0` where `T0` is not copy-registered *contains a
non-copy-registered leaf type*, yet evaluating `x` succeeds through the
copyable branch (function values are cheap to copy) and the binding
remains present — it is not consumed and a second run succeeds again. -/
theorem run_ident_noncopy_counterexample :
    containsNonCopyLeaf [] (.Fn (.Leaf 0) (.Leaf 0)) = true ∧
    run_ident_twice [] [] [("x", ⟨.Fn (.Leaf 0) (.Leaf 0), [5]⟩)] "x" =
      .ok (([5], [5]), [("x", ⟨.Fn (.Leaf 0) (.Leaf 0), [5]⟩)]) ∧
    lookupBinding [("x", ⟨.Fn (.Leaf 0) (.Leaf 0), [5]⟩)] "x" =
      some ⟨.Fn (.Leaf 0) (.Leaf 0), [5]⟩ :=
  ⟨rfl, rfl, rfl⟩

/-- C2 (amended): for a binding whose type is *not copyable under
`is_binding_copyable`* — i.e. some leaf outside any `Fn` or `Borrow`
node is not copy-registered — evaluating `x` consumes the binding (it is
erased from the map) and a subsequent run referencing `x` fails with the
undeclared-binding error. -/
theorem run_ident_noncopy (ct : List Nat) (fns : List (String × Nat)) (bs : Bindings)
    (x : String) (b : Binding)
    (hb : lookupBinding bs x = some b)
    (hf : List.find? (fun p => p.1 == x) fns = none)
    (hc : is_binding_copyable ct b.type = false)
    (hnd : (bindingKeys bs).Nodup) :
    run_ident ct fns bs x = .ok (b.values, eraseBinding bs x) ∧
      lookupBinding (eraseBinding bs x) x = none ∧
      run_ident ct fns (eraseBinding bs x) x = .error "use of undeclared binding" := by
  have h1 : run_ident ct fns bs x = .ok (b.values, eraseBinding bs x) := by
    simp [run_ident, hb, hf, hc]
  have h2 : lookupBinding (eraseBinding bs x) x = none :=
    lookupBinding_eraseBinding_self bs x hnd
  refine ⟨h1, h2, ?_⟩
  simp [run_ident, h2, hf]

/-- Witness for the amended C2: the non-copy binding `x : T9 = 7` with an
empty copy-type set. -/
theorem run_ident_noncopy_witness :
    run_ident [] [] [("x", ⟨.Leaf 9, [7]⟩)] "x" = .ok ([7], []) ∧
      lookupBinding ([] : Bindings) "x" = none ∧
      run_ident [] [] ([] : Bindings) "x" = .error "use of undeclared binding" := by
  have h := run_ident_noncopy [] [] [("x", ⟨.Leaf 9, [7]⟩)] "x" ⟨.Leaf 9, [7]⟩
    rfl rfl rfl (by simp [bindingKeys])
  simpa [eraseBinding, List.eraseP] using h

/-- Elaboration-stage result: a payload or a list of errors, in either
case carrying the state as it stood when the stage finished (the
`ContextualResult` / `StringResult` shape of the source). -/
inductive StageResult (E P S : Type) where
  | ok (p : P) (s : S)
  | err (es : List E) (s : S)

/-- The driver's process-wide state relevant to `parse_scripts`: the
append-only source buffer, the AST and the type graph (the component
types are parameters; the claims only compare them for equality). -/
structure EnvData (A G : Type) where
  src : String
  ast : A
  tg : G

/-- `parse_scripts` from the driver: run the elaboration front end
(parse each file, type-name resolution, sema — composed here into one
stage, since each sub-stage reads and returns only the payload and the
AST/type-graph copy) over a *copy* of the environment's AST and type
graph; only on success apply the environment update (register the
generated graphs, append the new global names to the source buffer); on
failure contextualize the collected errors and return the environment as
it was passed in. -/
def parse_scripts {A G E P : Type}
    (frontend : A → G → StageResult E P (A × G))
    (applySuccess : EnvData A G → P → A → G → EnvData A G)
    (contextualize : List E → List String)
    (env : EnvData A G) :
    Except (List String × EnvData A G) (EnvData A G) :=
  match frontend env.ast env.tg with
  | .ok p (ast, tg) => .ok (applySuccess env p ast tg)
  | .err errs _ => .error (contextualize errs, env)

/-- C3: whenever `parse_scripts` returns errors, the returned
environment's source buffer, AST and type graph are identical to those of
the input environment — elaboration worked on a copy, and the update is
applied only on success. -/
theorem parse_scripts_error_env_same {A G E P : Type}
    (frontend : A → G → StageResult E P (A × G))
    (applySuccess : EnvData A G → P → A → G → EnvData A G)
    (contextualize : List E → List String)
    (env env' : EnvData A G) (errs : List String)
    (h : parse_scripts frontend applySuccess contextualize env = .error (errs, env')) :
    env'.src = env.src ∧ env'.ast = env.ast ∧ env'.tg = env.tg := by
  rw [parse_scripts] at h
  cases hf : frontend env.ast env.tg with
  | ok p s =>
    obtain ⟨a, g⟩ := s
    rw [hf] at h
    simp at h
  | err es s =>
    rw [hf] at h
    have henv : env = env' := congrArg Prod.snd (Except.error.inj h)
    exact ⟨(congrArg EnvData.src henv).symm, (congrArg EnvData.ast henv).symm,
      (congrArg EnvData.tg henv).symm⟩

/-- Witness for C3: a front end that fails outright on a one-file parse
over a small environment. -/
theorem parse_scripts_error_env_same_witness :
    (⟨"src", 1, 2⟩ : EnvData Nat Nat).src = "src" ∧
      (⟨"src", 1, 2⟩ : EnvData Nat Nat).ast = 1 ∧
      (⟨"src", 1, 2⟩ : EnvData Nat Nat).tg = 2 :=
  parse_scripts_error_env_same
    (fun _ _ => (StageResult.err ["expected expression"] ((99 : Nat), (99 : Nat)) :
      StageResult String Unit (Nat × Nat)))
    (fun env _ a g => ⟨env.src ++ "x", a, g⟩)
    (fun es => es)
    ⟨"src", 1, 2⟩ ⟨"src", 1, 2⟩ ["expected expression"] rfl

/-- `overload_resolution` from sema: for an identifier with global
candidates, keep the candidate indices whose type unifies with the use
site's type (the source's loop `for i … if unify_types(candidate, expr
type) push i`, modelled as a filter over the indexed candidate list —
`unify_types` itself is not under src/ and is a parameter). A unique
match binds the identifier to that overload; zero matches report
"no matching overload found" listing every candidate type; several
report "function call is ambiguous" listing the matching candidate
types. -/
def overload_resolution (unify : Ty → Ty → Bool) (cands : List Ty) (useTy : Ty) :
    Except (String × List Ty) Nat :=
  match cands.enum.filter (fun p => unify p.2 useTy) with
  | [(i, _)] => .ok i
  | [] => .error ("no matching overload found", cands)
  | matching => .error ("function call is ambiguous", matching.map (fun p => p.2))

theorem enum_filter_snd (unify : Ty → Ty → Bool) (useTy : Ty) (cands : List Ty) (n : Nat) :
    ((List.enumFrom n cands).filter (fun p => unify p.2 useTy)).map (fun p => p.2) =
      cands.filter (fun t => unify t useTy) := by
  induction cands generalizing n with
  | nil => rfl
  | cons hd tl ih =>
    rw [List.enumFrom_cons]
    by_cases h : unify hd useTy = true
    · rw [List.filter_cons_of_pos (by simpa using h), List.filter_cons_of_pos (by simpa using h),
        List.map_cons]
      exact congrArg (hd :: ·) (ih (n + 1))
    · rw [List.filter_cons_of_neg (by simpa using h), List.filter_cons_of_neg (by simpa using h)]
      exact ih (n + 1)

/-- C7: overload resolution over an identifier's global candidates.
Exactly one unifying candidate binds the identifier to that candidate
(the returned index names a candidate whose type unifies with the use
site's type); zero unifying candidates produce the error
"no matching overload found" listing the candidate types; more than one
produces "function call is ambiguous" listing the unifying candidate
types. -/
theorem overload_resolution_correct (unify : Ty → Ty → Bool) (cands : List Ty) (useTy : Ty) :
    (∀ i t, cands.enum.filter (fun p => unify p.2 useTy) = [(i, t)] →
      overload_resolution unify cands useTy = .ok i ∧
        cands[i]? = some t ∧ unify t useTy = true) ∧
    ((cands.filter (fun t => unify t useTy)).length = 0 →
      overload_resolution unify cands useTy =
        .error ("no matching overload found", cands)) ∧
    (2 ≤ (cands.filter (fun t => unify t useTy)).length →
      overload_resolution unify cands useTy =
        .error ("function call is ambiguous", cands.filter (fun t => unify t useTy))) := by
  have hmap : (cands.enum.filter (fun p => unify p.2 useTy)).map (fun p => p.2) =
      cands.filter (fun t => unify t useTy) := enum_filter_snd unify useTy cands 0
  refine ⟨?_, ?_, ?_⟩
  · intro i t hsingle
    have hmem : (i, t) ∈ cands.enum.filter (fun p => unify p.2 useTy) := by
      rw [hsingle]; exact List.mem_singleton.mpr rfl
    have hmem' := List.mem_filter.mp hmem
    refine ⟨?_, ?_, by simpa using hmem'.2⟩
    · rw [overload_resolution, hsingle]
    · exact List.mk_mem_enum_iff_getElem?.mp hmem'.1
  · intro hzero
    have : cands.enum.filter (fun p => unify p.2 useTy) = [] := by
      have := congrArg List.length hmap
      rw [List.length_map] at this
      exact List.eq_nil_of_length_eq_zero (this.trans hzero)
    rw [overload_resolution, this]
  · intro htwo
    have hlen : 2 ≤ (cands.enum.filter (fun p => unify p.2 useTy)).length := by
      have := congrArg List.length hmap
      rw [List.length_map] at this
      omega
    rw [overload_resolution]
    rcases hm : cands.enum.filter (fun p => unify p.2 useTy) with _ | ⟨a, _ | ⟨b, rest⟩⟩
    · rw [hm] at hlen; simp at hlen
    · rw [hm] at hlen; simp at hlen
    · rw [← hmap, hm]

/-- Witness for C7: the three outcomes at concrete candidate lists — a
unique match binds overload 1, zero matches and two matches produce the
two error messages. -/
theorem overload_resolution_correct_witness :
    overload_resolution (fun a _ => match a with | .Leaf 1 => true | _ => false)
        [.Leaf 0, .Leaf 1] (.Leaf 1) = .ok 1 ∧
    overload_resolution (fun _ _ => false) [.Leaf 0, .Leaf 1] (.Leaf 1) =
      .error ("no matching overload found", [.Leaf 0, .Leaf 1]) ∧
    overload_resolution (fun _ _ => true) [.Leaf 0, .Leaf 1] (.Leaf 1) =
      .error ("function call is ambiguous", [.Leaf 0, .Leaf 1]) :=
  ⟨((overload_resolution_correct (fun a _ => match a with | .Leaf 1 => true | _ => false)
      [.Leaf 0, .Leaf 1] (.Leaf 1)).1 1 (.Leaf 1) rfl).1,
    (overload_resolution_correct (fun _ _ => false) [.Leaf 0, .Leaf 1] (.Leaf 1)).2.1 rfl,
    (overload_resolution_correct (fun _ _ => true) [.Leaf 0, .Leaf 1] (.Leaf 1)).2.2
      (by norm_num)⟩

/-- Modelled from the spec: the `select` async primitive's value
behaviour (its implementation is not under src/; only its tests and the
graph-construction caller are). Per §4.4, `select` takes a boolean
condition followed by `2k` value inputs and emits the first `k` inputs
when the condition is true and the last `k` when it is false. -/
def selectPrim (cond : Bool) (inputs : List Nat) : List Nat :=
  let k := inputs.length / 2
  if cond then inputs.take k else inputs.drop k

/-- C8: for every `k ≥ 0` and every invocation of `select` on a boolean
condition followed by `2k` value inputs (`xs ++ ys` with `k` inputs
each), the result is the first `k` inputs when the condition is true and
the last `k` inputs when it is false. -/
theorem selectPrim_correct (k : Nat) (xs ys : List Nat)
    (hx : xs.length = k) (hy : ys.length = k) :
    selectPrim true (xs ++ ys) = xs ∧ selectPrim false (xs ++ ys) = ys := by
  have hk : (xs ++ ys).length / 2 = k := by
    rw [List.length_append, hx, hy]; omega
  constructor
  · simp only [selectPrim, if_true]
    rw [hk]
    exact List.take_left' hx
  · simp only [selectPrim, Bool.false_eq_true, if_false]
    rw [hk]
    exact List.drop_left' hx

/-- Witness for C8 at `k = 2` with inputs `(1, 2, 3, 4)`, matching the
concrete cases of the async test suite. -/
theorem selectPrim_correct_witness :
    selectPrim true [1, 2, 3, 4] = [1, 2] ∧ selectPrim false [1, 2, 3, 4] = [3, 4] :=
  selectPrim_correct 2 [1, 2] [3, 4] rfl rfl

/-- AST node tags (union of the tag sets of the two pipeline variants in
the source: the AST-forest driver uses `RootFn`/`EnvValue`/`Module`, the
middle sema variant additionally has `Global`/`NativeFn`). -/
inductive ATag where
  | PatternWildCard
  | PatternIdent
  | PatternTuple
  | ExprLiteral
  | ExprIdent
  | ExprCall
  | ExprSelect
  | ExprBorrow
  | ExprWith
  | ExprTuple
  | Fn
  | Assignment
  | RootFn
  | EnvValue
  | Module
  | Global
  | NativeFn
deriving DecidableEq, Repr

/-- One AST node: its tag, positional children (ASTIDs) and its entry in
the parallel `types` table. -/
structure ANode where
  tag : ATag
  children : List Nat
  type : Ty

/-- Append-only AST forest: node `i` is `nodes[i]`. -/
structure AST2 where
  nodes : List ANode

/-- Number of nodes in the forest. -/
def AST2.size (a : AST2) : Nat := a.nodes.length

/-- Node at an ASTID. -/
def AST2.get (a : AST2) (i : Nat) : Option ANode := a.nodes[i]?

/-- `append_root`: append one node to the forest, returning the new
forest and the fresh node's ASTID. -/
def appendRoot (a : AST2) (tag : ATag) (ty : Ty) (children : List Nat) : AST2 × Nat :=
  (⟨a.nodes ++ [⟨tag, children, ty⟩]⟩, a.nodes.length)

/-- Tag of the node at an ASTID. -/
def tagOf (a : AST2) (i : Nat) : Option ATag := (a.get i).map fun n => n.tag

/-- `Type` handle of the node at an ASTID (`ast.types[id]`). -/
def typeOf (a : AST2) (i : Nat) : Ty := ((a.get i).map fun n => n.type).getD .Floating

/-- `c`-th child of the node at an ASTID (`ast.forest.child_ids(id)`). -/
def childOf (a : AST2) (i c : Nat) : Nat :=
  (((a.get i).map fun n => n.children).getD []).getD c 0

/-- `is_expr` over AST tags: the `Expr*` tags. -/
def is_expr : ATag → Bool
  | .ExprLiteral | .ExprIdent | .ExprCall | .ExprSelect
  | .ExprBorrow | .ExprWith | .ExprTuple => true
  | _ => false

/-- Whether the node at an ASTID exists and is an expression. -/
def isExprAt (a : AST2) (i : Nat) : Bool := ((tagOf a i).map is_expr).getD false

/-- The driver's ASTID-keyed value map (`Map<ASTID, vector<AsyncValue>>`);
resolved `Any` payloads are modelled as `String` in this section, since
`run_to_string` produces string results. -/
abbrev BindMap : Type := List (Nat × List String)

/-- Find the values for an ASTID. -/
def lookupBM : BindMap → Nat → Option (List String)
  | [], _ => none
  | (k, v) :: tl, x => if k = x then some v else lookupBM tl x

/-- `bindings.emplace(id, values)`: inserts only when the key is absent. -/
def insertBM (bs : BindMap) (id : Nat) (vs : List String) : BindMap :=
  if (lookupBM bs id).isSome then bs else (id, vs) :: bs

/-- `assign_values` from the driver: walk the pattern's leaves in order
(the forest's `leaf_ids`, supplied as the list of (ASTID, tag, type)
triples), carve `size_of(type)` values out of the executed value vector
for each leaf, and emplace the slice into the binding map when the leaf
is a `PatternIdent`; wildcard leaves only advance the offset. `size_of`
is not under src/ and is modelled by the spec's size rule (`sizeSpec`). -/
def assign_values : List (Nat × ATag × Ty) → Nat → List String → BindMap → BindMap
  | [], _, _, bs => bs
  | (id, tag, ty) :: rest, offset, values, bs =>
    let size := sizeSpec ty
    let bs' := if tag = .PatternIdent then insertBM bs id ((values.drop offset).take size)
               else bs
    assign_values rest (offset + size) values bs'

/-- The synthesized `to_string` wrapper from `run_to_string`'s expression
branch: create the `Borrow`, `Tuple`, `string`-leaf and `Fn` type nodes,
then append `ExprBorrow(root)`, `ExprTuple(borrow)`, the `to_string`
`ExprIdent` and `ExprCall(callee, tuple)` roots carrying those types;
returns the extended forest and the call's ASTID. `sid` is the native
`TypeID` of `std::string`. -/
def synth_to_string (ast : AST2) (root sid : Nat) : AST2 × Nat :=
  let exprType := typeOf ast root
  let borrowType := Ty.Borrow exprType
  let tupleType := Ty.Tuple (.cons borrowType .nil)
  let stringType := Ty.Leaf sid
  let fnType := Ty.Fn tupleType stringType
  let p1 := appendRoot ast .ExprBorrow borrowType [root]
  let p2 := appendRoot p1.1 .ExprTuple tupleType [p1.2]
  let p3 := appendRoot p2.1 .ExprIdent fnType []
  appendRoot p3.1 .ExprCall stringType [p3.2, p2.2]

/-- `run_or_assign` from the driver, with the parts not under src/
(graph creation and asynchronous execution, i.e. `run_function`) passed
in as `runExec`, which returns the executed value vector and the binding
map after captured bindings were consumed or borrowed. An expression
root returns its values as the result binding; an `Assignment` root
executes its second child, returns an empty result binding, and
redistributes the values over the pattern (first child) via
`assign_values`. -/
def run_or_assign_model (runExec : AST2 → Nat → BindMap → List String × BindMap)
    (leavesOf : AST2 → Nat → List (Nat × ATag × Ty))
    (ast : AST2) (id : Nat) (bs : BindMap) : (Ty × List String) × BindMap :=
  if isExprAt ast id then
    let (values, bs') := runExec ast id bs
    ((typeOf ast id, values), bs')
  else
    let (values, bs') := runExec ast (childOf ast id 1) bs
    ((typeOf ast id, []),
      assign_values (leavesOf ast (childOf ast id 0)) 0 values bs')

/-- The final step of `run_to_string`: a single result value is the
string; an empty result binding substitutes `Future(Any(std::string()))`,
the empty string. -/
def finalString : List String → String
  | [v] => v
  | _ => ""

/-- `run_to_string` from the driver: parse gave the REPL root `root` in
`ast`. An `Assignment` root is sema-checked and handed to
`run_or_assign`; any other root is sema-checked, wrapped by
`synth_to_string`, sema-checked again at the synthesized call root and
then handed to `run_or_assign`; the result binding's values become the
returned string. Sema (`semaF`) and the execution back end (`runExec`,
`leavesOf`) are not under src/ and are parameters. -/
def run_to_string_model
    (semaF : AST2 → Nat → Except (List String) AST2)
    (runExec : AST2 → Nat → BindMap → List String × BindMap)
    (leavesOf : AST2 → Nat → List (Nat × ATag × Ty))
    (sid : Nat) (ast : AST2) (root : Nat) (bs : BindMap) :
    Except (List String) (String × BindMap) :=
  if tagOf ast root = some .Assignment then
    match semaF ast root with
    | .error es => .error es
    | .ok ast1 =>
      let r := run_or_assign_model runExec leavesOf ast1 root bs
      .ok (finalString r.1.2, r.2)
  else
    match semaF ast root with
    | .error es => .error es
    | .ok ast1 =>
      let p := synth_to_string ast1 root sid
      match semaF p.1 p.2 with
      | .error es => .error es
      | .ok ast3 =>
        let r := run_or_assign_model runExec leavesOf ast3 p.2 bs
        .ok (finalString r.1.2, r.2)

theorem synth_to_string_spec (ast : AST2) (root sid : Nat) :
    (synth_to_string ast root sid).2 = ast.size + 3 ∧
    (synth_to_string ast root sid).1.nodes = ast.nodes ++
      [⟨.ExprBorrow, [root], .Borrow (typeOf ast root)⟩,
       ⟨.ExprTuple, [ast.size], .Tuple (.cons (.Borrow (typeOf ast root)) .nil)⟩,
       ⟨.ExprIdent, [], .Fn (.Tuple (.cons (.Borrow (typeOf ast root)) .nil)) (.Leaf sid)⟩,
       ⟨.ExprCall, [ast.size + 2, ast.size + 1], .Leaf sid⟩] := by
  constructor
  · simp [synth_to_string, appendRoot, AST2.size]
  · simp [synth_to_string, appendRoot, AST2.size]

/-- C6: for an input line parsed to an expression root (not an
`Assignment`), when both sema runs succeed `run_to_string` appends the
four synthesized nodes — `ExprBorrow(root)` typed `Borrow T`,
`ExprTuple` typed `Tuple[Borrow T]`, the `to_string` `ExprIdent` typed
`Fn(Tuple[Borrow T], string)` and `ExprCall(callee, tuple)` typed
`string` — re-runs sema on the synthesized call root, executes it, and
returns the resulting string (a one-value result binding holds the
string itself). -/
theorem run_to_string_expr_correct
    (semaF : AST2 → Nat → Except (List String) AST2)
    (runExec : AST2 → Nat → BindMap → List String × BindMap)
    (leavesOf : AST2 → Nat → List (Nat × ATag × Ty))
    (sid : Nat) (ast ast1 ast3 : AST2) (root : Nat) (bs : BindMap)
    (htag : ¬ tagOf ast root = some .Assignment)
    (hs1 : semaF ast root = .ok ast1)
    (hs2 : semaF (synth_to_string ast1 root sid).1 (synth_to_string ast1 root sid).2 = .ok ast3)
    (hexpr3 : isExprAt ast3 (synth_to_string ast1 root sid).2 = true) :
    (synth_to_string ast1 root sid).2 = ast1.size + 3 ∧
    (synth_to_string ast1 root sid).1.nodes = ast1.nodes ++
      [⟨.ExprBorrow, [root], .Borrow (typeOf ast1 root)⟩,
       ⟨.ExprTuple, [ast1.size], .Tuple (.cons (.Borrow (typeOf ast1 root)) .nil)⟩,
       ⟨.ExprIdent, [], .Fn (.Tuple (.cons (.Borrow (typeOf ast1 root)) .nil)) (.Leaf sid)⟩,
       ⟨.ExprCall, [ast1.size + 2, ast1.size + 1], .Leaf sid⟩] ∧
    run_to_string_model semaF runExec leavesOf sid ast root bs =
      .ok (finalString (runExec ast3 (synth_to_string ast1 root sid).2 bs).1,
        (runExec ast3 (synth_to_string ast1 root sid).2 bs).2) := by
  obtain ⟨hid, hnodes⟩ := synth_to_string_spec ast1 root sid
  refine ⟨hid, hnodes, ?_⟩
  rw [run_to_string_model, if_neg htag]
  simp only [hs1, hs2, run_or_assign_model, hexpr3, if_true]

/-- Witness for C6: a one-literal AST with identity sema and an executor
yielding the string "7". -/
theorem run_to_string_expr_correct_witness :
    run_to_string_model (fun a _ => .ok a) (fun _ _ bs => (["7"], bs)) (fun _ _ => [])
      5 ⟨[⟨.ExprLiteral, [], .Leaf 7⟩]⟩ 0 [] = .ok ("7", []) := by
  have h := run_to_string_expr_correct (fun a _ => .ok a) (fun _ _ bs => (["7"], bs))
    (fun _ _ => []) 5 ⟨[⟨.ExprLiteral, [], .Leaf 7⟩]⟩ ⟨[⟨.ExprLiteral, [], .Leaf 7⟩]⟩
    (synth_to_string ⟨[⟨.ExprLiteral, [], .Leaf 7⟩]⟩ 0 5).1 0 []
    (by decide) rfl rfl rfl
  exact h.2.2

theorem lookupBM_insertBM_isSome (bs : BindMap) (k id : Nat) (vs : List String)
    (h : (lookupBM bs id).isSome = true) :
    (lookupBM (insertBM bs k vs) id).isSome = true := by
  rw [insertBM]
  by_cases hk : (lookupBM bs k).isSome
  · rw [if_pos hk]; exact h
  · rw [if_neg hk, lookupBM]
    by_cases hki : k = id
    · rw [if_pos hki]; rfl
    · rw [if_neg hki]; exact h

theorem lookupBM_insertBM_self (bs : BindMap) (k : Nat) (vs : List String) :
    (lookupBM (insertBM bs k vs) k).isSome = true := by
  rw [insertBM]
  by_cases hk : (lookupBM bs k).isSome
  · rw [if_pos hk]; exact hk
  · rw [if_neg hk, lookupBM, if_pos rfl]; rfl

theorem assign_values_isSome_mono (leaves : List (Nat × ATag × Ty)) (offset : Nat)
    (values : List String) (bs : BindMap) (id : Nat)
    (h : (lookupBM bs id).isSome = true) :
    (lookupBM (assign_values leaves offset values bs) id).isSome = true := by
  induction leaves generalizing offset bs with
  | nil => exact h
  | cons hd rest ih =>
    obtain ⟨lid, tag, lty⟩ := hd
    rw [assign_values]
    by_cases ht : tag = ATag.PatternIdent
    · simp only [if_pos ht]
      exact ih _ _ (lookupBM_insertBM_isSome bs lid id _ h)
    · simp only [if_neg ht]
      exact ih _ _ h

theorem assign_values_mem (leaves : List (Nat × ATag × Ty)) (offset : Nat)
    (values : List String) (bs : BindMap) (id : Nat) (ty : Ty)
    (h : (id, ATag.PatternIdent, ty) ∈ leaves) :
    (lookupBM (assign_values leaves offset values bs) id).isSome = true := by
  induction leaves generalizing offset bs with
  | nil => cases h
  | cons hd rest ih =>
    obtain ⟨lid, tag, lty⟩ := hd
    rw [assign_values]
    rcases List.mem_cons.mp h with heq | hmem
    · injection heq with h1 h23
      injection h23 with h2 h3
      subst h1
      subst h2
      simp only [if_pos rfl]
      exact assign_values_isSome_mono rest _ values _ id (lookupBM_insertBM_self bs id _)
    · by_cases ht : tag = ATag.PatternIdent
      · simp only [if_pos ht]
        exact ih _ _ hmem
      · simp only [if_neg ht]
        exact ih _ _ hmem

/-- C10: for a REPL line that is a let-assignment, `run_to_string`
succeeds and returns the empty string — the assignment branch of
`run_or_assign` yields a result binding with zero values and the
empty-values branch of the final step substitutes the empty string —
while the executed values are redistributed over the pattern: every
`PatternIdent` leaf of the pattern ends up present in the ASTID-keyed
binding map. -/
theorem run_to_string_assign_correct
    (semaF : AST2 → Nat → Except (List String) AST2)
    (runExec : AST2 → Nat → BindMap → List String × BindMap)
    (leavesOf : AST2 → Nat → List (Nat × ATag × Ty))
    (sid : Nat) (ast ast1 : AST2) (root : Nat) (bs : BindMap)
    (htag : tagOf ast root = some .Assignment)
    (hs1 : semaF ast root = .ok ast1)
    (htag1 : tagOf ast1 root = some .Assignment) :
    run_to_string_model semaF runExec leavesOf sid ast root bs =
      .ok ("", assign_values (leavesOf ast1 (childOf ast1 root 0)) 0
        (runExec ast1 (childOf ast1 root 1) bs).1
        (runExec ast1 (childOf ast1 root 1) bs).2) ∧
    (run_or_assign_model runExec leavesOf ast1 root bs).1.2 = [] ∧
    (∀ id ty, (id, ATag.PatternIdent, ty) ∈ leavesOf ast1 (childOf ast1 root 0) →
      (lookupBM ((run_or_assign_model runExec leavesOf ast1 root bs).2) id).isSome = true) := by
  have hnoexpr : isExprAt ast1 root = false := by
    rw [isExprAt, htag1]
    rfl
  have hro : run_or_assign_model runExec leavesOf ast1 root bs =
      ((typeOf ast1 root, []),
        assign_values (leavesOf ast1 (childOf ast1 root 0)) 0
          (runExec ast1 (childOf ast1 root 1) bs).1
          (runExec ast1 (childOf ast1 root 1) bs).2) := by
    rw [run_or_assign_model, hnoexpr]
    rfl
  refine ⟨?_, by rw [hro], ?_⟩
  · rw [run_to_string_model, if_pos htag]
    simp only [hs1, hro]
    rfl
  · intro id ty hmem
    rw [hro]
    exact assign_values_mem _ _ _ _ _ ty hmem

/-- Witness for C10: a two-node assignment AST (pattern ident and
literal) whose single pattern leaf receives the executed value. -/
theorem run_to_string_assign_correct_witness :
    run_to_string_model (fun a _ => .ok a) (fun _ _ bs => (["3"], bs))
        (fun _ _ => [(0, ATag.PatternIdent, Ty.Leaf 0)]) 5
        ⟨[⟨.PatternIdent, [], .Leaf 0⟩, ⟨.ExprLiteral, [], .Leaf 0⟩,
          ⟨.Assignment, [0, 1], .Tuple .nil⟩]⟩ 2 [] =
      .ok ("", [(0, ["3"])]) ∧
    (lookupBM [(0, ["3"])] 0).isSome = true := by
  have h := run_to_string_assign_correct (fun a _ => .ok a) (fun _ _ bs => (["3"], bs))
    (fun _ _ => [(0, ATag.PatternIdent, Ty.Leaf 0)]) 5
    ⟨[⟨.PatternIdent, [], .Leaf 0⟩, ⟨.ExprLiteral, [], .Leaf 0⟩,
      ⟨.Assignment, [0, 1], .Tuple .nil⟩]⟩
    ⟨[⟨.PatternIdent, [], .Leaf 0⟩, ⟨.ExprLiteral, [], .Leaf 0⟩,
      ⟨.Assignment, [0, 1], .Tuple .nil⟩]⟩ 2 [] rfl rfl rfl
  refine ⟨?_, rfl⟩
  simpa using h.1

mutual

/-- An AST subtree for the identifier-graph pass: ASTID, tag, source text
(the identifier's name, meaningful for `PatternIdent`/`ExprIdent`) and
children. -/
inductive ATree where
  | mk (id : Nat) (tag : ATag) (name : String) (children : ATrees)

/-- Children of an `ATree` node. -/
inductive ATrees where
  | nil
  | cons (hd : ATree) (tl : ATrees)

end

/-- ASTID of a tree's root. -/
def ATree.rootId : ATree → Nat
  | .mk id _ _ _ => id

/-- The context threaded by `calculate_ident_graph`: the fan-out edges
recorded so far (flattened to a list of (from, to) pairs; the source
pushes both directions), the visible module globals and the stack of
in-scope patterns (head = most recently pushed, matching the source's
reverse search). -/
structure IGCtx where
  edges : List (Nat × Nat)
  globals : List (String × Nat)
  stack : List (String × Nat)

mutual

/-- `calculate_ident_graph` from sema: `PatternIdent` pushes itself onto
the scope stack; `Fn`/`ExprWith` process children then truncate the
stack back to its entry size; `ExprIdent` resolves to the topmost stack
entry with the same text, else to every matching global, recording both
edge directions; `Assignment` processes the expression *before* the
pattern; `Global` skips its identifier child; every other tag descends
into its children. -/
def calcIdent (ctx : IGCtx) : ATree → IGCtx
  | .mk id tag name children =>
    match tag with
    | .PatternIdent => { ctx with stack := (name, id) :: ctx.stack }
    | .Fn | .ExprWith =>
      let ctx' := calcIdentList ctx children
      { ctx' with stack := ctx'.stack.drop (ctx'.stack.length - ctx.stack.length) }
    | .ExprIdent =>
      match ctx.stack.find? (fun p => p.1 == name) with
      | some pr => { ctx with edges := (id, pr.2) :: (pr.2, id) :: ctx.edges }
      | none =>
        { ctx with edges :=
            ((ctx.globals.filter (fun p => p.1 == name)).flatMap
              (fun p => [(id, p.2), (p.2, id)])) ++ ctx.edges }
    | .Assignment =>
      match children with
      | .cons p (.cons e .nil) => calcIdent (calcIdent ctx e) p
      | other => calcIdentList ctx other
    | .Global =>
      match children with
      | .cons _ (.cons v .nil) => calcIdent ctx v
      | _ => ctx
    | _ => calcIdentList ctx children

/-- `calcIdent` folded over a child list, left to right. -/
def calcIdentList (ctx : IGCtx) : ATrees → IGCtx
  | .nil => ctx
  | .cons hd tl => calcIdentList (calcIdent ctx hd) tl

end

mutual

/-- All ASTIDs occurring in a tree. -/
def nodeIds : ATree → List Nat
  | .mk id _ _ children => id :: nodeIdsList children

/-- All ASTIDs occurring in a child list. -/
def nodeIdsList : ATrees → List Nat
  | .nil => []
  | .cons hd tl => nodeIds hd ++ nodeIdsList tl

end

/-- ASTIDs on the scope stack. -/
def stackIds (ctx : IGCtx) : List Nat := ctx.stack.map (fun p => p.2)

/-- ASTIDs of the visible globals. -/
def globalIds (ctx : IGCtx) : List Nat := ctx.globals.map (fun p => p.2)

mutual

/-- `true` when every node of the tree is a pattern node. -/
def isPatternTree : ATree → Bool
  | .mk _ tag _ children =>
    (tag = ATag.PatternIdent || tag = ATag.PatternTuple || tag = ATag.PatternWildCard) &&
      isPatternTrees children

/-- `isPatternTree` over a child list. -/
def isPatternTrees : ATrees → Bool
  | .nil => true
  | .cons hd tl => isPatternTree hd && isPatternTrees tl

end

mutual

theorem calcIdent_stack_shape (t : ATree) (ctx : IGCtx) :
    (calcIdent ctx t).globals = ctx.globals ∧
    ∃ pushed, (calcIdent ctx t).stack = pushed ++ ctx.stack ∧
      ∀ pr ∈ pushed, pr.2 ∈ nodeIds t := by
  obtain ⟨id, tag, name, children⟩ := t
  cases tag with
  | PatternIdent =>
    refine ⟨rfl, [(name, id)], rfl, ?_⟩
    intro pr hpr
    rw [List.mem_singleton] at hpr
    subst hpr
    exact List.mem_cons_self _ _
  | ExprIdent =>
    rw [calcIdent]
    cases hf : ctx.stack.find? (fun p => p.1 == name) with
    | some pr => exact ⟨rfl, [], rfl, by intro pr hpr; cases hpr⟩
    | none => exact ⟨rfl, [], rfl, by intro pr hpr; cases hpr⟩
  | Fn =>
    obtain ⟨hg, pushed, hs, _⟩ := calcIdentList_stack_shape children ctx
    refine ⟨hg, [], ?_, by intro pr hpr; cases hpr⟩
    rw [calcIdent]
    show (calcIdentList ctx children).stack.drop
      ((calcIdentList ctx children).stack.length - ctx.stack.length) = [] ++ ctx.stack
    rw [hs, List.length_append, Nat.add_sub_cancel, List.drop_left, List.nil_append]
  | ExprWith =>
    obtain ⟨hg, pushed, hs, _⟩ := calcIdentList_stack_shape children ctx
    refine ⟨hg, [], ?_, by intro pr hpr; cases hpr⟩
    rw [calcIdent]
    show (calcIdentList ctx children).stack.drop
      ((calcIdentList ctx children).stack.length - ctx.stack.length) = [] ++ ctx.stack
    rw [hs, List.length_append, Nat.add_sub_cancel, List.drop_left, List.nil_append]
  | Assignment =>
    cases children with
    | nil =>
      exact ⟨rfl, [], rfl, by intro pr hpr; cases hpr⟩
    | cons p rest =>
      cases rest with
      | nil =>
        obtain ⟨hg, pushed, hs, hmem⟩ := calcIdentList_stack_shape (.cons p .nil) ctx
        refine ⟨hg, pushed, hs, ?_⟩
        intro pr hpr
        exact List.mem_cons_of_mem _ (hmem pr hpr)
      | cons e rest2 =>
        cases rest2 with
        | nil =>
          have hred : calcIdent ctx (.mk id ATag.Assignment name
              (.cons p (.cons e .nil))) = calcIdent (calcIdent ctx e) p := rfl
          rw [hred]
          obtain ⟨hg1, pe, hs1, hm1⟩ := calcIdent_stack_shape e ctx
          obtain ⟨hg2, pp, hs2, hm2⟩ := calcIdent_stack_shape p (calcIdent ctx e)
          refine ⟨hg2.trans hg1, pp ++ pe, ?_, ?_⟩
          · rw [hs2, hs1, List.append_assoc]
          · intro pr hpr
            rcases List.mem_append.mp hpr with h | h
            · have := hm2 pr h
              simp only [nodeIds, nodeIdsList, List.mem_cons, List.mem_append]
              simp only [nodeIds] at this
              tauto
            · have := hm1 pr h
              simp only [nodeIds, nodeIdsList, List.mem_cons, List.mem_append]
              simp only [nodeIds] at this
              tauto
        | cons c3 rest3 =>
          obtain ⟨hg, pushed, hs, hmem⟩ :=
            calcIdentList_stack_shape (.cons p (.cons e (.cons c3 rest3))) ctx
          exact ⟨hg, pushed, hs, fun pr hpr => List.mem_cons_of_mem _ (hmem pr hpr)⟩
  | Global =>
    cases children with
    | nil => exact ⟨rfl, [], rfl, by intro pr hpr; cases hpr⟩
    | cons a rest =>
      cases rest with
      | nil => exact ⟨rfl, [], rfl, by intro pr hpr; cases hpr⟩
      | cons v rest2 =>
        cases rest2 with
        | nil =>
          have hred : calcIdent ctx (.mk id ATag.Global name
              (.cons a (.cons v .nil))) = calcIdent ctx v := rfl
          rw [hred]
          obtain ⟨hg, pushed, hs, hmem⟩ := calcIdent_stack_shape v ctx
          refine ⟨hg, pushed, hs, ?_⟩
          intro pr hpr
          have := hmem pr hpr
          simp only [nodeIds, nodeIdsList, List.mem_cons, List.mem_append]
          simp only [nodeIds] at this
          tauto
        | cons c3 rest3 => exact ⟨rfl, [], rfl, by intro pr hpr; cases hpr⟩
  | PatternWildCard =>
    obtain ⟨hg, pushed, hs, hmem⟩ := calcIdentList_stack_shape children ctx
    exact ⟨hg, pushed, hs, fun pr hpr => List.mem_cons_of_mem _ (hmem pr hpr)⟩
  | PatternTuple =>
    obtain ⟨hg, pushed, hs, hmem⟩ := calcIdentList_stack_shape children ctx
    exact ⟨hg, pushed, hs, fun pr hpr => List.mem_cons_of_mem _ (hmem pr hpr)⟩
  | ExprLiteral =>
    obtain ⟨hg, pushed, hs, hmem⟩ := calcIdentList_stack_shape children ctx
    exact ⟨hg, pushed, hs, fun pr hpr => List.mem_cons_of_mem _ (hmem pr hpr)⟩
  | ExprCall =>
    obtain ⟨hg, pushed, hs, hmem⟩ := calcIdentList_stack_shape children ctx
    exact ⟨hg, pushed, hs, fun pr hpr => List.mem_cons_of_mem _ (hmem pr hpr)⟩
  | ExprSelect =>
    obtain ⟨hg, pushed, hs, hmem⟩ := calcIdentList_stack_shape children ctx
    exact ⟨hg, pushed, hs, fun pr hpr => List.mem_cons_of_mem _ (hmem pr hpr)⟩
  | ExprBorrow =>
    obtain ⟨hg, pushed, hs, hmem⟩ := calcIdentList_stack_shape children ctx
    exact ⟨hg, pushed, hs, fun pr hpr => List.mem_cons_of_mem _ (hmem pr hpr)⟩
  | ExprTuple =>
    obtain ⟨hg, pushed, hs, hmem⟩ := calcIdentList_stack_shape children ctx
    exact ⟨hg, pushed, hs, fun pr hpr => List.mem_cons_of_mem _ (hmem pr hpr)⟩
  | RootFn =>
    obtain ⟨hg, pushed, hs, hmem⟩ := calcIdentList_stack_shape children ctx
    exact ⟨hg, pushed, hs, fun pr hpr => List.mem_cons_of_mem _ (hmem pr hpr)⟩
  | EnvValue =>
    obtain ⟨hg, pushed, hs, hmem⟩ := calcIdentList_stack_shape children ctx
    exact ⟨hg, pushed, hs, fun pr hpr => List.mem_cons_of_mem _ (hmem pr hpr)⟩
  | Module =>
    obtain ⟨hg, pushed, hs, hmem⟩ := calcIdentList_stack_shape children ctx
    exact ⟨hg, pushed, hs, fun pr hpr => List.mem_cons_of_mem _ (hmem pr hpr)⟩
  | NativeFn =>
    obtain ⟨hg, pushed, hs, hmem⟩ := calcIdentList_stack_shape children ctx
    exact ⟨hg, pushed, hs, fun pr hpr => List.mem_cons_of_mem _ (hmem pr hpr)⟩

theorem calcIdentList_stack_shape (ts : ATrees) (ctx : IGCtx) :
    (calcIdentList ctx ts).globals = ctx.globals ∧
    ∃ pushed, (calcIdentList ctx ts).stack = pushed ++ ctx.stack ∧
      ∀ pr ∈ pushed, pr.2 ∈ nodeIdsList ts := by
  cases ts with
  | nil => exact ⟨rfl, [], rfl, by intro pr hpr; cases hpr⟩
  | cons hd tl =>
    obtain ⟨hg1, phd, hs1, hm1⟩ := calcIdent_stack_shape hd ctx
    obtain ⟨hg2, ptl, hs2, hm2⟩ := calcIdentList_stack_shape tl (calcIdent ctx hd)
    refine ⟨hg2.trans hg1, ptl ++ phd, ?_, ?_⟩
    · rw [calcIdentList, hs2, hs1, List.append_assoc]
    · intro pr hpr
      rw [nodeIdsList, List.mem_append]
      rcases List.mem_append.mp hpr with h | h
      · exact Or.inr (hm2 pr h)
      · exact Or.inl (hm1 pr h)

end

theorem mem_stackIds_after (t : ATree) (ctx : IGCtx) (i : Nat)
    (h : i ∈ stackIds (calcIdent ctx t)) : i ∈ nodeIds t ∨ i ∈ stackIds ctx := by
  obtain ⟨-, pushed, hs, hmem⟩ := calcIdent_stack_shape t ctx
  rw [stackIds, hs, List.map_append] at h
  rcases List.mem_append.mp h with h | h
  · obtain ⟨pr, hpr, hq⟩ := List.mem_map.mp h
    exact Or.inl (hq ▸ hmem pr hpr)
  · exact Or.inr h

theorem globalIds_after (t : ATree) (ctx : IGCtx) :
    globalIds (calcIdent ctx t) = globalIds ctx := by
  rw [globalIds, globalIds, (calcIdent_stack_shape t ctx).1]

theorem endpoint_cons (hd : ATree) (tl : ATrees) (ctx : IGCtx) {i : Nat}
    (h : i ∈ nodeIdsList tl ∨ i ∈ stackIds (calcIdent ctx hd) ∨
      i ∈ globalIds (calcIdent ctx hd)) :
    i ∈ nodeIdsList (.cons hd tl) ∨ i ∈ stackIds ctx ∨ i ∈ globalIds ctx := by
  rcases h with h | h | h
  · exact Or.inl (by rw [nodeIdsList]; exact List.mem_append_right _ h)
  · rcases mem_stackIds_after hd ctx i h with h' | h'
    · exact Or.inl (by rw [nodeIdsList]; exact List.mem_append_left _ h')
    · exact Or.inr (Or.inl h')
  · rw [globalIds_after] at h
    exact Or.inr (Or.inr h)

theorem endpoint_cons_hd (hd : ATree) (tl : ATrees) {i : Nat}
    (A B : Prop)
    (h : i ∈ nodeIds hd ∨ A ∨ B) :
    i ∈ nodeIdsList (.cons hd tl) ∨ A ∨ B :=
  h.imp (fun h' => by rw [nodeIdsList]; exact List.mem_append_left _ h') (fun h' => h')

theorem endpoint_weaken {i id : Nat} {tag : ATag} {nm : String} {children : ATrees}
    (A B : Prop) (h : i ∈ nodeIdsList children ∨ A ∨ B) :
    i ∈ nodeIds (.mk id tag nm children) ∨ A ∨ B :=
  h.imp (fun h' => by rw [nodeIds]; exact List.mem_cons_of_mem _ h') (fun h' => h')

theorem assign_mem_nodeIds {j : Nat} (id : Nat) (nm : String) (p e : ATree)
    (h : j ∈ nodeIds p ∨ j ∈ nodeIds e) :
    j ∈ nodeIds (ATree.mk id ATag.Assignment nm (.cons p (.cons e .nil))) := by
  simp only [nodeIds, nodeIdsList, List.mem_cons, List.mem_append]
  tauto

theorem assign_endpoint (id : Nat) (nm : String) (p e : ATree) (ctx : IGCtx) {i : Nat}
    (h : i ∈ nodeIds p ∨ i ∈ stackIds (calcIdent ctx e) ∨ i ∈ globalIds (calcIdent ctx e)) :
    i ∈ nodeIds (ATree.mk id ATag.Assignment nm (.cons p (.cons e .nil))) ∨
      i ∈ stackIds ctx ∨ i ∈ globalIds ctx := by
  rcases h with h | h | h
  · exact Or.inl (assign_mem_nodeIds id nm p e (Or.inl h))
  · rcases mem_stackIds_after e ctx i h with h' | h'
    · exact Or.inl (assign_mem_nodeIds id nm p e (Or.inr h'))
    · exact Or.inr (Or.inl h')
  · rw [globalIds_after] at h
    exact Or.inr (Or.inr h)

theorem assign_endpoint_e (id : Nat) (nm : String) (p e : ATree) (ctx : IGCtx) {i : Nat}
    (h : i ∈ nodeIds e ∨ i ∈ stackIds ctx ∨ i ∈ globalIds ctx) :
    i ∈ nodeIds (ATree.mk id ATag.Assignment nm (.cons p (.cons e .nil))) ∨
      i ∈ stackIds ctx ∨ i ∈ globalIds ctx :=
  h.imp (fun h' => assign_mem_nodeIds id nm p e (Or.inr h')) (fun h' => h')

mutual

theorem calcIdent_edges_shape (t : ATree) (ctx : IGCtx) :
    ∃ es, (calcIdent ctx t).edges = es ++ ctx.edges ∧
      ∀ pr ∈ es,
        (pr.1 ∈ nodeIds t ∨ pr.1 ∈ stackIds ctx ∨ pr.1 ∈ globalIds ctx) ∧
        (pr.2 ∈ nodeIds t ∨ pr.2 ∈ stackIds ctx ∨ pr.2 ∈ globalIds ctx) := by
  obtain ⟨id, tag, name, children⟩ := t
  cases tag with
  | PatternIdent => exact ⟨[], rfl, by intro pr hpr; cases hpr⟩
  | ExprIdent =>
    rw [calcIdent]
    cases hf : ctx.stack.find? (fun p => p.1 == name) with
    | some pr0 =>
      have hmem : pr0 ∈ ctx.stack := List.mem_of_find?_eq_some hf
      have hstk : pr0.2 ∈ stackIds ctx := List.mem_map_of_mem _ hmem
      have hid : id ∈ nodeIds (ATree.mk id ATag.ExprIdent name children) :=
        List.mem_cons_self _ _
      refine ⟨[(id, pr0.2), (pr0.2, id)], rfl, ?_⟩
      intro pr hpr
      rcases List.mem_cons.mp hpr with hq | hq
      · subst hq
        exact ⟨Or.inl hid, Or.inr (Or.inl hstk)⟩
      · rcases List.mem_cons.mp hq with hq | hq
        · subst hq
          exact ⟨Or.inr (Or.inl hstk), Or.inl hid⟩
        · cases hq
    | none =>
      have hid : id ∈ nodeIds (ATree.mk id ATag.ExprIdent name children) :=
        List.mem_cons_self _ _
      refine ⟨(ctx.globals.filter (fun p => p.1 == name)).flatMap
        (fun p => [(id, p.2), (p.2, id)]), rfl, ?_⟩
      intro pr hpr
      obtain ⟨q, hq, hpr'⟩ := List.mem_flatMap.mp hpr
      have hgl : q.2 ∈ globalIds ctx :=
        List.mem_map_of_mem _ (List.mem_of_mem_filter hq)
      rcases List.mem_cons.mp hpr' with he | he
      · subst he
        exact ⟨Or.inl hid, Or.inr (Or.inr hgl)⟩
      · rcases List.mem_cons.mp he with he | he
        · subst he
          exact ⟨Or.inr (Or.inr hgl), Or.inl hid⟩
        · cases he
  | Fn =>
    obtain ⟨es, he, hmem⟩ := calcIdentList_edges_shape children ctx
    exact ⟨es, he, fun pr hpr =>
      ⟨endpoint_weaken _ _ (hmem pr hpr).1, endpoint_weaken _ _ (hmem pr hpr).2⟩⟩
  | ExprWith =>
    obtain ⟨es, he, hmem⟩ := calcIdentList_edges_shape children ctx
    exact ⟨es, he, fun pr hpr =>
      ⟨endpoint_weaken _ _ (hmem pr hpr).1, endpoint_weaken _ _ (hmem pr hpr).2⟩⟩
  | Assignment =>
    cases children with
    | nil => exact ⟨[], rfl, by intro pr hpr; cases hpr⟩
    | cons p rest =>
      cases rest with
      | nil =>
        obtain ⟨es, he, hmem⟩ := calcIdentList_edges_shape (.cons p .nil) ctx
        exact ⟨es, he, fun pr hpr =>
          ⟨endpoint_weaken _ _ (hmem pr hpr).1, endpoint_weaken _ _ (hmem pr hpr).2⟩⟩
      | cons e rest2 =>
        cases rest2 with
        | nil =>
          have hred : calcIdent ctx (.mk id ATag.Assignment name
              (.cons p (.cons e .nil))) = calcIdent (calcIdent ctx e) p := rfl
          rw [hred]
          obtain ⟨e1, he1, hm1⟩ := calcIdent_edges_shape e ctx
          obtain ⟨e2, he2, hm2⟩ := calcIdent_edges_shape p (calcIdent ctx e)
          refine ⟨e2 ++ e1, ?_, ?_⟩
          · rw [he2, he1, List.append_assoc]
          · intro pr hpr
            rcases List.mem_append.mp hpr with h | h
            · exact ⟨assign_endpoint id name p e ctx (hm2 pr h).1,
                assign_endpoint id name p e ctx (hm2 pr h).2⟩
            · exact ⟨assign_endpoint_e id name p e ctx (hm1 pr h).1,
                assign_endpoint_e id name p e ctx (hm1 pr h).2⟩
        | cons c3 rest3 =>
          obtain ⟨es, he, hmem⟩ :=
            calcIdentList_edges_shape (.cons p (.cons e (.cons c3 rest3))) ctx
          exact ⟨es, he, fun pr hpr =>
            ⟨endpoint_weaken _ _ (hmem pr hpr).1, endpoint_weaken _ _ (hmem pr hpr).2⟩⟩
  | Global =>
    cases children with
    | nil => exact ⟨[], rfl, by intro pr hpr; cases hpr⟩
    | cons a rest =>
      cases rest with
      | nil => exact ⟨[], rfl, by intro pr hpr; cases hpr⟩
      | cons v rest2 =>
        cases rest2 with
        | nil =>
          have hred : calcIdent ctx (.mk id ATag.Global name
              (.cons a (.cons v .nil))) = calcIdent ctx v := rfl
          rw [hred]
          obtain ⟨es, he, hmem⟩ := calcIdent_edges_shape v ctx
          refine ⟨es, he, ?_⟩
          intro pr hpr
          have hin : ∀ j, j ∈ nodeIds v → j ∈ nodeIds (ATree.mk id ATag.Global name
              (.cons a (.cons v .nil))) := by
            intro j hj
            simp only [nodeIds, nodeIdsList, List.mem_cons, List.mem_append]
            tauto
          exact ⟨((hmem pr hpr).1).imp (hin pr.1) (fun h => h),
            ((hmem pr hpr).2).imp (hin pr.2) (fun h => h)⟩
        | cons c3 rest3 => exact ⟨[], rfl, by intro pr hpr; cases hpr⟩
  | PatternWildCard =>
    obtain ⟨es, he, hmem⟩ := calcIdentList_edges_shape children ctx
    exact ⟨es, he, fun pr hpr =>
      ⟨endpoint_weaken _ _ (hmem pr hpr).1, endpoint_weaken _ _ (hmem pr hpr).2⟩⟩
  | PatternTuple =>
    obtain ⟨es, he, hmem⟩ := calcIdentList_edges_shape children ctx
    exact ⟨es, he, fun pr hpr =>
      ⟨endpoint_weaken _ _ (hmem pr hpr).1, endpoint_weaken _ _ (hmem pr hpr).2⟩⟩
  | ExprLiteral =>
    obtain ⟨es, he, hmem⟩ := calcIdentList_edges_shape children ctx
    exact ⟨es, he, fun pr hpr =>
      ⟨endpoint_weaken _ _ (hmem pr hpr).1, endpoint_weaken _ _ (hmem pr hpr).2⟩⟩
  | ExprCall =>
    obtain ⟨es, he, hmem⟩ := calcIdentList_edges_shape children ctx
    exact ⟨es, he, fun pr hpr =>
      ⟨endpoint_weaken _ _ (hmem pr hpr).1, endpoint_weaken _ _ (hmem pr hpr).2⟩⟩
  | ExprSelect =>
    obtain ⟨es, he, hmem⟩ := calcIdentList_edges_shape children ctx
    exact ⟨es, he, fun pr hpr =>
      ⟨endpoint_weaken _ _ (hmem pr hpr).1, endpoint_weaken _ _ (hmem pr hpr).2⟩⟩
  | ExprBorrow =>
    obtain ⟨es, he, hmem⟩ := calcIdentList_edges_shape children ctx
    exact ⟨es, he, fun pr hpr =>
      ⟨endpoint_weaken _ _ (hmem pr hpr).1, endpoint_weaken _ _ (hmem pr hpr).2⟩⟩
  | ExprTuple =>
    obtain ⟨es, he, hmem⟩ := calcIdentList_edges_shape children ctx
    exact ⟨es, he, fun pr hpr =>
      ⟨endpoint_weaken _ _ (hmem pr hpr).1, endpoint_weaken _ _ (hmem pr hpr).2⟩⟩
  | RootFn =>
    obtain ⟨es, he, hmem⟩ := calcIdentList_edges_shape children ctx
    exact ⟨es, he, fun pr hpr =>
      ⟨endpoint_weaken _ _ (hmem pr hpr).1, endpoint_weaken _ _ (hmem pr hpr).2⟩⟩
  | EnvValue =>
    obtain ⟨es, he, hmem⟩ := calcIdentList_edges_shape children ctx
    exact ⟨es, he, fun pr hpr =>
      ⟨endpoint_weaken _ _ (hmem pr hpr).1, endpoint_weaken _ _ (hmem pr hpr).2⟩⟩
  | Module =>
    obtain ⟨es, he, hmem⟩ := calcIdentList_edges_shape children ctx
    exact ⟨es, he, fun pr hpr =>
      ⟨endpoint_weaken _ _ (hmem pr hpr).1, endpoint_weaken _ _ (hmem pr hpr).2⟩⟩
  | NativeFn =>
    obtain ⟨es, he, hmem⟩ := calcIdentList_edges_shape children ctx
    exact ⟨es, he, fun pr hpr =>
      ⟨endpoint_weaken _ _ (hmem pr hpr).1, endpoint_weaken _ _ (hmem pr hpr).2⟩⟩

theorem calcIdentList_edges_shape (ts : ATrees) (ctx : IGCtx) :
    ∃ es, (calcIdentList ctx ts).edges = es ++ ctx.edges ∧
      ∀ pr ∈ es,
        (pr.1 ∈ nodeIdsList ts ∨ pr.1 ∈ stackIds ctx ∨ pr.1 ∈ globalIds ctx) ∧
        (pr.2 ∈ nodeIdsList ts ∨ pr.2 ∈ stackIds ctx ∨ pr.2 ∈ globalIds ctx) := by
  cases ts with
  | nil => exact ⟨[], rfl, by intro pr hpr; cases hpr⟩
  | cons hd tl =>
    obtain ⟨e1, he1, hm1⟩ := calcIdent_edges_shape hd ctx
    obtain ⟨e2, he2, hm2⟩ := calcIdentList_edges_shape tl (calcIdent ctx hd)
    refine ⟨e2 ++ e1, ?_, ?_⟩
    · rw [calcIdentList, he2, he1, List.append_assoc]
    · intro pr hpr
      rcases List.mem_append.mp hpr with h | h
      · exact ⟨endpoint_cons hd tl ctx (hm2 pr h).1, endpoint_cons hd tl ctx (hm2 pr h).2⟩
      · exact ⟨endpoint_cons_hd hd tl _ _ (hm1 pr h).1,
          endpoint_cons_hd hd tl _ _ (hm1 pr h).2⟩

end

mutual

theorem calcIdent_pattern_no_edges (t : ATree) (ctx : IGCtx)
    (hp : isPatternTree t = true) : (calcIdent ctx t).edges = ctx.edges := by
  obtain ⟨id, tag, name, children⟩ := t
  rw [isPatternTree, Bool.and_eq_true] at hp
  obtain ⟨htag, hch⟩ := hp
  cases tag <;> first
    | rfl
    | exact calcIdentList_pattern_no_edges children ctx hch
    | simp at htag

theorem calcIdentList_pattern_no_edges (ts : ATrees) (ctx : IGCtx)
    (hp : isPatternTrees ts = true) : (calcIdentList ctx ts).edges = ctx.edges := by
  cases ts with
  | nil => rfl
  | cons hd tl =>
    rw [isPatternTrees, Bool.and_eq_true] at hp
    rw [calcIdentList, calcIdentList_pattern_no_edges tl _ hp.2,
      calcIdent_pattern_no_edges hd ctx hp.1]

end

/-- C9: identifier resolution treats let-assignments as non-recursive.
Processing `Assignment(pattern, expr)` handles the expression before the
pattern is pushed into scope, so — whenever the pattern's node ids are
fresh (not already on the scope stack, not globals, not inside the
expression) — no edge recorded by the assignment touches the pattern's
nodes: an identifier inside the expression never resolves to the pattern
introduced by the same assignment, and each resolution target is an
outer stack binding, a global, or a binding introduced inside the
expression itself. -/
theorem assignment_expr_nonrecursive
    (aid : Nat) (nm : String) (p e : ATree) (ctx : IGCtx)
    (hp : isPatternTree p = true)
    (hdisj : ∀ i ∈ nodeIds p, i ∉ stackIds ctx ∧ i ∉ globalIds ctx ∧ i ∉ nodeIds e) :
    ∃ es, (calcIdent ctx (.mk aid ATag.Assignment nm (.cons p (.cons e .nil)))).edges
        = es ++ ctx.edges ∧
      ∀ pr ∈ es,
        (pr.1 ∉ nodeIds p ∧ pr.2 ∉ nodeIds p) ∧
        (pr.2 ∈ nodeIds e ∨ pr.2 ∈ stackIds ctx ∨ pr.2 ∈ globalIds ctx) := by
  have hred : calcIdent ctx (.mk aid ATag.Assignment nm (.cons p (.cons e .nil))) =
      calcIdent (calcIdent ctx e) p := rfl
  obtain ⟨es, he, hmem⟩ := calcIdent_edges_shape e ctx
  have hpat : (calcIdent (calcIdent ctx e) p).edges = (calcIdent ctx e).edges :=
    calcIdent_pattern_no_edges p (calcIdent ctx e) hp
  refine ⟨es, by rw [hred, hpat, he], ?_⟩
  intro pr hpr
  have h1 := (hmem pr hpr).1
  have h2 := (hmem pr hpr).2
  refine ⟨⟨?_, ?_⟩, h2⟩
  · intro hin
    obtain ⟨hs, hg, hne⟩ := hdisj pr.1 hin
    rcases h1 with h | h | h
    exacts [hne h, hs h, hg h]
  · intro hin
    obtain ⟨hs, hg, hne⟩ := hdisj pr.2 hin
    rcases h2 with h | h | h
    exacts [hne h, hs h, hg h]

/-- Witness for C9: `let x = x` (pattern node 1, expression node 2) in a
context where `x` is also a module global (node 0): the expression's
identifier resolves to the global, never to the freshly introduced
pattern. -/
theorem assignment_expr_nonrecursive_witness :
    ∃ es, (calcIdent ⟨[], [("x", 0)], []⟩
        (.mk 3 ATag.Assignment "let" (.cons (.mk 1 ATag.PatternIdent "x" .nil)
          (.cons (.mk 2 ATag.ExprIdent "x" .nil) .nil)))).edges
        = es ++ ([] : List (Nat × Nat)) ∧
      ∀ pr ∈ es,
        (pr.1 ∉ nodeIds (.mk 1 ATag.PatternIdent "x" .nil) ∧
          pr.2 ∉ nodeIds (.mk 1 ATag.PatternIdent "x" .nil)) ∧
        (pr.2 ∈ nodeIds (.mk 2 ATag.ExprIdent "x" .nil) ∨
          pr.2 ∈ stackIds ⟨[], [("x", 0)], []⟩ ∨
          pr.2 ∈ globalIds ⟨[], [("x", 0)], []⟩) :=
  assignment_expr_nonrecursive 3 "let" (.mk 1 ATag.PatternIdent "x" .nil)
    (.mk 2 ATag.ExprIdent "x" .nil) ⟨[], [("x", 0)], []⟩ rfl (by decide)

end Ooze
